import Mathlib

/-! The sparc32 atomic counter (arch/sparc/include/asm/atomic_32.h) and the
mode check of the SVGACTRL framebuffer driver (drivers/video/fbdev/grvga.c).

A shallow embedding of the atomic cell, of the compare-and-swap retry loop of
`__atomic_add_unless` and of the derived test operations, and of
`grvga_check_var`, followed by the properties established about them.

The C type `int` is embedded as `Int`; every place where C converts to or
computes in `int` reduces the mathematical value with `wrap32`
(two's-complement, 32 bits).
-/

namespace Atomic32

/-! ## Machine integers -/

/-- The least value of the C type int. -/
def INT_MIN : Int := -2147483648

/-- The greatest value of the C type int. -/
def INT_MAX : Int := 2147483647

/-- Reduction of a mathematical integer to the C type int: the value modulo
2^32, read as a signed two's-complement number. -/
def wrap32 (x : Int) : Int := (x + 2147483648) % 4294967296 - 2147483648

/-- A value representable in the C type int. -/
def InRange (x : Int) : Prop := INT_MIN ≤ x ∧ x ≤ INT_MAX

instance (x : Int) : Decidable (InRange x) := by
  unfold InRange; exact inferInstance

/-! ## The atomic cell -/

/-- The type atomic_t of linux/types.h: a structure with the single field
counter, of type int. -/
structure atomic_t where
  counter : Int
deriving DecidableEq

/-- Line 20: `#define ATOMIC_INIT(i) { (i) }`, the initialiser of the int
field. -/
def ATOMIC_INIT (i : Int) : atomic_t := { counter := wrap32 i }

/-- Line 21: `#define atomic_read(v) ACCESS_ONCE((v)->counter)`. -/
def atomic_read (v : atomic_t) : Int := v.counter

/-- Line 53: `#define atomic_set(v, i) WRITE_ONCE(((v)->counter), (i))`; the
first argument is overwritten, whatever it held. -/
def atomic_set (_v : atomic_t) (i : Int) : atomic_t := { counter := wrap32 i }

/-- Modelled from the spec: the hardware primitive cmpxchg of asm/cmpxchg.h,
which is outside the sources at hand. The glossary describes it as "a hardware
primitive that atomically replaces a memory word's value with a new value only
if its current value equals an expected value, returning the value actually
observed". The result is the observed value and the cell afterwards. -/
def cmpxchg (v : atomic_t) (o n : Int) : Int × atomic_t :=
  if v.counter = o then (v.counter, { counter := n }) else (v.counter, v)

/-- Line 51: `#define atomic_cmpxchg(v, o, n) (cmpxchg(&((v)->counter), (o), (n)))`. -/
def atomic_cmpxchg (v : atomic_t) (o n : Int) : Int × atomic_t := cmpxchg v o n

/-! ## The retry loop of `__atomic_add_unless` (lines 55 to 68) -/

/-- A record of one invocation of the compare-and-swap primitive: the
expected value, the new value offered, and the value observed. -/
structure CasCall where
  expected : Int
  desired : Int
  observed : Int
deriving DecidableEq

/-- A compare-and-swap invocation stores its new value exactly when the
observed value is the expected one. -/
def CasCall.succeeded (e : CasCall) : Bool := decide (e.observed = e.expected)

/-- What a finished call of `__atomic_add_unless` leaves behind: the value
returned, the cell, and the compare-and-swap invocations it issued, oldest
first. -/
structure Outcome where
  ret : Int
  cell : atomic_t
  cas : List CasCall
deriving DecidableEq

/-- The `for (;;)` loop of lines 59 to 66, with the local variable c and the
cell threaded through. Each unit of fuel pays for one pass through the body;
`none` means the fuel ran out before a `break`. -/
def add_unless_loop (a u : Int) : Nat → atomic_t → Int → List CasCall → Option Outcome
  | 0, _, _, _ => none
  | fuel + 1, v, c, log =>
    -- if (unlikely(c == (u))) break;
    if c = u then some { ret := c, cell := v, cas := log }
    else
      -- old = atomic_cmpxchg((v), c, c + (a));
      let r := atomic_cmpxchg v c (wrap32 (c + a))
      let log1 := log ++ [{ expected := c, desired := wrap32 (c + a), observed := r.1 }]
      -- if (likely(old == c)) break;
      if r.1 = c then some { ret := c, cell := r.2, cas := log1 }
      -- c = old;
      else add_unless_loop a u fuel r.2 r.1 log1

/-- Lines 55 to 68: `c = atomic_read(v);`, the loop, `return c;`, run with no
other context touching the cell. -/
def __atomic_add_unless (fuel : Nat) (v : atomic_t) (a u : Int) : Option Outcome :=
  add_unless_loop a u fuel v (atomic_read v) []

/-- Whether a finished call stored to the cell: some compare-and-swap of its
log succeeded. -/
def Outcome.wrote (o : Outcome) : Bool := o.cas.any CasCall.succeeded

/-- Modelled from the spec: atomic_fetch_add, declared at line 32 and defined
outside the sources at hand. Section 4.2: "loop: read current value c; compute
c + delta; invoke cas(cell, c, c+delta); if the observed value equals c, the
operation succeeded and returns c; otherwise retry with the newly observed
value as the new c". The result is the previous value and the cell. -/
def fetch_add_loop (a : Int) : Nat → atomic_t → Int → Option (Int × atomic_t)
  | 0, _, _ => none
  | fuel + 1, v, c =>
    let r := cmpxchg v c (wrap32 (c + a))
    if r.1 = c then some (c, r.2) else fetch_add_loop a fuel r.2 r.1

/-- Modelled from the spec: atomic_fetch_add(i, v), the loop above entered
with the value read from the cell. -/
def atomic_fetch_add (fuel : Nat) (i : Int) (v : atomic_t) : Option (Int × atomic_t) :=
  fetch_add_loop i fuel v (atomic_read v)

/-! ## The same loop, one shared-memory access at a time

To speak about other contexts touching the cell while a call is in flight, the
body of `__atomic_add_unless` is also given as a transition function: a call is
at its entry, at the head of the loop with its local c, or has returned. -/

/-- Where a call of `__atomic_add_unless` stands: before `c = atomic_read(v)`,
at the head of the `for (;;)` loop with the local variable c, or after
`return c`. -/
inductive Pc where
  | entry
  | loop (c : Int)
  | ret (c : Int)
deriving DecidableEq

/-- The private state of a call in flight: its position and the
compare-and-swap invocations it has issued so far, oldest first. -/
structure Frame where
  pc : Pc
  cas : List CasCall
deriving DecidableEq

/-- A call that has not started. -/
def Frame.start : Frame := { pc := .entry, cas := [] }

/-- The value a call has returned, if it has returned. -/
def Frame.returned (f : Frame) : Option Int :=
  match f.pc with
  | .ret c => some c
  | _ => none

/-- One step of a call with delta a and forbidden value u on the cell v: the
read of line 58, or one pass through the loop body of lines 60 to 65. A call
that has returned does nothing. -/
def step (a u : Int) (v : atomic_t) (f : Frame) : atomic_t × Frame :=
  match f.pc with
  | .entry => (v, { pc := .loop (atomic_read v), cas := f.cas })
  | .loop c =>
    if c = u then (v, { pc := .ret c, cas := f.cas })
    else
      let r := atomic_cmpxchg v c (wrap32 (c + a))
      let log1 := f.cas ++ [{ expected := c, desired := wrap32 (c + a), observed := r.1 }]
      if r.1 = c then (r.2, { pc := .ret c, cas := log1 })
      else (r.2, { pc := .loop r.1, cas := log1 })
  | .ret _ => (v, f)

/-- What happens next to the cell: the call under study takes a step, or some
other context stores a value with atomic_set. -/
inductive Event where
  | call
  | store (w : Int)
deriving DecidableEq

/-- A run of one call against an arbitrary environment: the events are applied
in order to the cell and the frame of the call. -/
def run_events (a u : Int) : List Event → atomic_t × Frame → atomic_t × Frame
  | [], s => s
  | .call :: es, s => run_events a u es (step a u s.1 s.2)
  | .store w :: es, s => run_events a u es (atomic_set s.1 w, s.2)

/-- No compare-and-swap of the call has observed u yet, and a call that has
not returned has had no compare-and-swap succeed. -/
def Clean (u : Int) (f : Frame) : Prop :=
  (∀ x ∈ f.cas, x.observed ≠ u) ∧
  ((∃ c, f.pc = .ret c) ∨ ∀ x ∈ f.cas, x.observed ≠ x.expected)

/-- The last compare-and-swap of the call observed u, none before it did, none
succeeded, and the call is about to return u or has returned it. -/
def Halted (u : Int) (f : Frame) : Prop :=
  (∃ l e, f.cas = l ++ [e] ∧ e.observed = u ∧ ∀ x ∈ l, x.observed ≠ u) ∧
  (∀ x ∈ f.cas, x.observed ≠ x.expected) ∧
  (f.pc = .loop u ∨ f.pc = .ret u)

/-! ## The fallback backend and single-threaded replay -/

/-- Modelled from the spec: the fallback `__atomic_add_unless` of line 79,
declared there and defined outside the sources at hand. Section 4.3: "a single
serialized critical section performing the same read-check-write rather than a
retry loop": read c; if c equals u return c without writing; else store c + a
and return c. The result is the returned value, whether the write was
skipped, and the cell. -/
def fallback_add_unless (v : atomic_t) (a u : Int) : Int × Bool × atomic_t :=
  let c := v.counter
  if c = u then (c, true, v) else (c, false, { counter := wrap32 (c + a) })

/-- A sequence of add_unless(a, u) calls replayed one after the other on the
compare-and-swap backend; each call reports its return value and whether it
skipped the write. -/
def replay_cas (fuel : Nat) : List (Int × Int) → atomic_t → Option (List (Int × Bool) × atomic_t)
  | [], v => some ([], v)
  | (a, u) :: ops, v =>
    match __atomic_add_unless fuel v a u with
    | none => none
    | some o =>
      match replay_cas fuel ops o.cell with
      | none => none
      | some (rs, w) => some ((o.ret, !o.wrote) :: rs, w)

/-- The same sequence replayed on the fallback backend. -/
def replay_fallback : List (Int × Int) → atomic_t → List (Int × Bool) × atomic_t
  | [], v => ([], v)
  | (a, u) :: ops, v =>
    let r := fallback_add_unless v a u
    let rest := replay_fallback ops r.2.2
    ((r.1, r.2.1) :: rest.1, rest.2)

/-! ## The derived operations (lines 84 to 112) -/

/-- Modelled from the spec: atomic_add_return, declared at lines 29 and 72 and
defined outside the sources at hand. Section 4.2 gives "add_return(cell,
delta) -> new_value", and section 4.4 has every operation be "a single atomic
transition of the cell's value": the counter becomes c + i wrapped to 32 bits,
and that new value is returned. -/
def atomic_add_return (i : Int) (v : atomic_t) : Int × atomic_t :=
  let n := wrap32 (v.counter + i)
  (n, { counter := n })

/-- Line 93: `#define atomic_sub_return(i, v) (atomic_add_return(-(int)(i), (v)))`. -/
def atomic_sub_return (i : Int) (v : atomic_t) : Int × atomic_t :=
  atomic_add_return (wrap32 (-(wrap32 i))) v

/-- Line 96: `#define atomic_inc_return(v) (atomic_add_return(1, (v)))`. -/
def atomic_inc_return (v : atomic_t) : Int × atomic_t := atomic_add_return 1 v

/-- Line 97: `#define atomic_dec_return(v) (atomic_add_return(-1, (v)))`. -/
def atomic_dec_return (v : atomic_t) : Int × atomic_t := atomic_add_return (-1) v

/-- Line 99: `#define atomic_add_negative(a, v) (atomic_add_return((a), (v)) < 0)`. -/
def atomic_add_negative (a : Int) (v : atomic_t) : Bool × atomic_t :=
  let r := atomic_add_return a v
  (decide (r.1 < 0), r.2)

/-- Line 109: `#define atomic_inc_and_test(v) (atomic_inc_return(v) == 0)`. -/
def atomic_inc_and_test (v : atomic_t) : Bool × atomic_t :=
  let r := atomic_inc_return v
  (decide (r.1 = 0), r.2)

/-- Line 111: `#define atomic_dec_and_test(v) (atomic_dec_return(v) == 0)`. -/
def atomic_dec_and_test (v : atomic_t) : Bool × atomic_t :=
  let r := atomic_dec_return v
  (decide (r.1 = 0), r.2)

/-- Line 112: `#define atomic_sub_and_test(i, v) (atomic_sub_return(i, v) == 0)`. -/
def atomic_sub_and_test (i : Int) (v : atomic_t) : Bool × atomic_t :=
  let r := atomic_sub_return i v
  (decide (r.1 = 0), r.2)

/-- The results of n calls of atomic_dec_and_test applied one after the other
to the cell, in the order applied, and the cell afterwards. -/
def dec_and_test_calls : Nat → atomic_t → List Bool × atomic_t
  | 0, v => ([], v)
  | n + 1, v =>
    let r := atomic_dec_and_test v
    let rest := dec_and_test_calls n r.2
    (r.1 :: rest.1, rest.2)

/-! ## Several calls in flight on one cell -/

/-- One of the concurrent callers of `__atomic_add_unless` on the shared cell:
its delta and the state of its call. -/
structure Caller where
  a : Int
  frame : Frame
deriving DecidableEq

/-- The shared cell and the callers working on it. -/
structure Sys where
  cell : atomic_t
  callers : List Caller
deriving DecidableEq

/-- Caller number i takes one step (one read or one compare-and-swap pass) on
the shared cell; the forbidden value u is common to all callers. A number
that names no caller changes nothing. -/
def sys_step (u : Int) (s : Sys) (i : Nat) : Sys :=
  match s.callers[i]? with
  | none => s
  | some k =>
    let r := step k.a u s.cell k.frame
    { cell := r.1, callers := s.callers.set i { a := k.a, frame := r.2 } }

/-- An interleaving: the callers named by the schedule step in that order. -/
def sys_run (u : Int) : List Nat → Sys → Sys
  | [], s => s
  | i :: sched, s => sys_run u sched (sys_step u s i)

/-- The values the cell holds at the successive steps of an interleaving, each
taken just before the step. -/
def sys_seen (u : Int) : List Nat → Sys → List Int
  | [], _ => []
  | i :: sched, s => s.cell.counter :: sys_seen u sched (sys_step u s i)

/-- A cell initialised to v0 and one caller per delta, none started. -/
def sys_init (v0 : Int) (ds : List Int) : Sys :=
  { cell := ATOMIC_INIT v0, callers := ds.map (fun d => { a := d, frame := Frame.start }) }

/-- The position of caller number i, if there is such a caller. -/
def Sys.pcOf (s : Sys) (i : Nat) : Option Pc := (s.callers[i]?).map (fun k => k.frame.pc)

/-- The value caller number i has returned, if it has returned. -/
def Sys.returned (s : Sys) (i : Nat) : Option Int :=
  (s.callers[i]?).bind (fun k => k.frame.returned)

/-- Every caller has returned. -/
def Sys.allReturned (s : Sys) : Prop := ∀ k ∈ s.callers, k.frame.returned.isSome = true

instance (s : Sys) : Decidable s.allReturned := by
  unfold Sys.allReturned; exact inferInstance

/-- The sums v0, v0 + d1, v0 + d1 + d2, ... of a list of deltas, one per
delta and the last delta left out, each wrapped to 32 bits. -/
def running_sums (v0 : Int) : List Int → List Int
  | [] => []
  | d :: ds => wrap32 v0 :: running_sums (v0 + d) ds

/-- A call that has not yet returned and does not hold the forbidden value. -/
def Pending (u : Int) (pc : Pc) : Prop := pc = .entry ∨ ∃ c, c ≠ u ∧ pc = .loop c

/-- The bookkeeping of a run from a cell initialised to v0 with deltas ds: the
list hist names, in the order of their successful compare-and-swap, the
callers that have stored, each with the value it returned. -/
structure Lin (u v0 : Int) (ds : List Int) (s : Sys) (hist : List (Nat × Int)) : Prop where
  cell : s.cell.counter = wrap32 (v0 + (hist.map (fun h => ds.getD h.1 0)).sum)
  sums : hist.map (fun h => h.2) = running_sums v0 (hist.map (fun h => ds.getD h.1 0))
  done : ∀ h ∈ hist, s.pcOf h.1 = some (.ret h.2)
  pending : ∀ j pc, s.pcOf j = some pc → (∀ h ∈ hist, h.1 ≠ j) → Pending u pc
  nodup : (hist.map (fun h => h.1)).Nodup
  deltas : ∀ j : Nat, (s.callers[j]?).map (fun k : Caller => k.a) = ds[j]?

/-! ## A call under contention -/

/-- The environment of a contended call: before each of the next attempts of
the call another context stores the next value of the list, so that the
attempt observes it. -/
def interference : List Int → List Event
  | [] => []
  | o :: os => Event.store o :: Event.call :: interference os

/-- The run in which the call reads the cell, has one attempt spoilt by each
value of the list in turn, and then makes one undisturbed attempt. -/
def contended_run (os : List Int) : List Event :=
  Event.call :: (interference os ++ [Event.call])

/-- The log of a call that compares against c first and then against each
observed value of the list in turn: every attempt offers its expected value
plus a, wrapped, and the last attempt observes what it expected. -/
def retry_log (a : Int) : Int → List Int → List CasCall
  | c, [] => [{ expected := c, desired := wrap32 (c + a), observed := c }]
  | c, o :: os => { expected := c, desired := wrap32 (c + a), observed := o } :: retry_log a o os

end Atomic32

/-! # The SVGACTRL framebuffer driver (drivers/video/fbdev/grvga.c)

The mode check `grvga_check_var`, lines 349 to 413. The fields of type u32
are embedded as `Nat`, with the products of line 374 and the doubling of line
371 reduced modulo 2^32. -/

namespace Grvga

/-- The error number EINVAL of errno-base.h, a header outside the sources at
hand. -/
def EINVAL : Int := 22

/-- The error number ENOMEM of errno-base.h, a header outside the sources at
hand. -/
def ENOMEM : Int := 12

/-- Reduction of a natural number to the C type u32. -/
def u32 (x : Nat) : Nat := x % 4294967296

/-- The structure fb_bitfield of linux/fb.h: offset, length, msb_right. -/
structure fb_bitfield where
  offset : Nat
  length : Nat
  msb_right : Nat
deriving DecidableEq

/-- The fields of struct fb_var_screeninfo that `grvga_check_var` reads or
writes; all are of type u32 or fb_bitfield. -/
structure fb_var_screeninfo where
  xres : Nat
  yres : Nat
  xres_virtual : Nat
  yres_virtual : Nat
  bits_per_pixel : Nat
  red : fb_bitfield
  green : fb_bitfield
  blue : fb_bitfield
  transp : fb_bitfield
  pixclock : Nat
deriving DecidableEq

/-- The structure grvga_par of lines 311 to 316, with the one register array
the check reads, regs->clk_vector (four words, indices 0 to 3), in place of
the pointer regs. -/
structure grvga_par where
  clk_vector : Nat → Nat
  clk_sel : Int

/-- The parts of struct fb_info the check touches: the current mode info->var,
the length info->fix.smem_len, and the driver data info->par. -/
structure fb_info where
  var : fb_var_screeninfo
  smem_len : Nat
  par : grvga_par

/-- Lines 378 to 381: `for (i = 0; i <= 3; i++) if (var->pixclock ==
par->regs->clk_vector[i]) break;`, entered at index i with the given number of
indices left; the result is the value of i after the loop. -/
def clk_loop (pixclock : Nat) (clk_vector : Nat → Nat) : Nat → Nat → Nat
  | 0, i => i
  | left + 1, i => if pixclock = clk_vector i then i else clk_loop pixclock clk_vector left (i + 1)

/-- Lines 355 to 358: `if (!var->xres) var->xres = 1; if (!var->yres)
var->yres = 1;`. -/
def clamp_res (var : fb_var_screeninfo) : fb_var_screeninfo :=
  let var := if var.xres = 0 then { var with xres := 1 } else var
  if var.yres = 0 then { var with yres := 1 } else var

/-- Lines 359 to 368: the chain of comparisons that picks the depth to store
in var->bits_per_pixel, with `none` for the final `return -EINVAL`. -/
def round_depth (bpp : Nat) : Option Nat :=
  if bpp ≤ 8 then some 8
  else if bpp ≤ 16 then some 16
  else if bpp ≤ 24 then some 24
  else if bpp ≤ 32 then some 32
  else none

/-- Lines 388 to 410: the switch that fills the colour bitfields of var, taken
on the depth given as first argument, with `none` for the default case. -/
def switch_layout (bpp : Nat) (var : fb_var_screeninfo) : Option fb_var_screeninfo :=
  if bpp = 8 then
    some { var with red := ⟨0, 8, 0⟩, green := ⟨0, 8, 0⟩, blue := ⟨0, 8, 0⟩,
                    transp := ⟨0, 0, 0⟩ }
  else if bpp = 16 then
    some { var with red := ⟨11, 5, 0⟩, green := ⟨5, 6, 0⟩, blue := ⟨0, 5, 0⟩,
                    transp := ⟨0, 0, 0⟩ }
  else if bpp = 24 ∨ bpp = 32 then
    some { var with red := ⟨16, 8, 0⟩, green := ⟨8, 8, 0⟩, blue := ⟨0, 8, 0⟩,
                    transp := ⟨24, 8, 0⟩ }
  else none

/-- Lines 349 to 413, for a call whose var is a structure of its own (not
info->var itself), as when a mode is requested through fb_set_var. The result
is the value returned, the structure var as left behind, and info as left
behind. -/
def grvga_check_var (var : fb_var_screeninfo) (info : fb_info) :
    Int × fb_var_screeninfo × fb_info :=
  let var := clamp_res var
  match round_depth var.bits_per_pixel with
  | none => (-EINVAL, var, info)
  | some d =>
    -- var->bits_per_pixel = d;
    -- var->xres_virtual = var->xres; var->yres_virtual = 2*var->yres;
    let var := { var with bits_per_pixel := d, xres_virtual := var.xres,
                          yres_virtual := u32 (2 * var.yres) }
    -- if (info->fix.smem_len) if ((yres_virtual*xres_virtual*bits_per_pixel/8) > smem_len)
    if info.smem_len ≠ 0 ∧
        u32 (u32 (var.yres_virtual * var.xres_virtual) * var.bits_per_pixel) / 8
          > info.smem_len then
      (-ENOMEM, var, info)
    else
      let i := clk_loop var.pixclock info.par.clk_vector 4 0
      -- if (i <= 3) par->clk_sel = i; else return -EINVAL;
      if i ≤ 3 then
        let info := { info with par := { info.par with clk_sel := (i : Int) } }
        -- switch (info->var.bits_per_pixel)
        match switch_layout info.var.bits_per_pixel var with
        | some var => (0, var, info)
        | none => (-EINVAL, var, info)
      else (-EINVAL, var, info)

/-- The colour layout for a depth, in the order red, green, blue, transp, as
the mode check is expected to report it: depth 8 has all offsets 0 and lengths
8 with transp of length 0; depth 16 has 11/5, 5/6, 0/5 with transp of length
0; depths 24 and 32 have 16/8, 8/8, 0/8 and 24/8. -/
def depth_layout (bpp : Nat) : Option (fb_bitfield × fb_bitfield × fb_bitfield × fb_bitfield) :=
  if bpp = 8 then some (⟨0, 8, 0⟩, ⟨0, 8, 0⟩, ⟨0, 8, 0⟩, ⟨0, 0, 0⟩)
  else if bpp = 16 then some (⟨11, 5, 0⟩, ⟨5, 6, 0⟩, ⟨0, 5, 0⟩, ⟨0, 0, 0⟩)
  else if bpp = 24 ∨ bpp = 32 then some (⟨16, 8, 0⟩, ⟨8, 8, 0⟩, ⟨0, 8, 0⟩, ⟨24, 8, 0⟩)
  else none

/-- The layout part of a checked mode. -/
def fb_var_screeninfo.layout (var : fb_var_screeninfo) :
    fb_bitfield × fb_bitfield × fb_bitfield × fb_bitfield :=
  (var.red, var.green, var.blue, var.transp)

/-- A request for 640x480 at depth 8 with pixel clock 40000. -/
def request8 : fb_var_screeninfo :=
  { xres := 640, yres := 480, xres_virtual := 0, yres_virtual := 0, bits_per_pixel := 8,
    red := ⟨0, 0, 0⟩, green := ⟨0, 0, 0⟩, blue := ⟨0, 0, 0⟩, transp := ⟨0, 0, 0⟩,
    pixclock := 40000 }

/-- A device running 640x480 at depth 16 (virtual height 960) with 1228800
bytes of video memory and the clocks 40000, 20000, 15385 and 0 on offer. -/
def running16 : fb_info :=
  { var := { xres := 640, yres := 480, xres_virtual := 640, yres_virtual := 960,
             bits_per_pixel := 16, red := ⟨11, 5, 0⟩, green := ⟨5, 6, 0⟩, blue := ⟨0, 5, 0⟩,
             transp := ⟨0, 0, 0⟩, pixclock := 40000 },
    smem_len := 1228800,
    par := { clk_vector := fun i => if i = 0 then 40000 else if i = 1 then 20000
                                    else if i = 2 then 15385 else 0,
             clk_sel := 0 } }

end Grvga

namespace Atomic32

/-! ## Theorems -/

/-- C1: when the cell holds the forbidden value u, `__atomic_add_unless`
returns u, leaves the counter equal to u, and its log of compare-and-swap
invocations is empty, for every delta and every positive amount of fuel. -/
theorem add_unless_forbidden (fuel : Nat) (a u : Int) :
    __atomic_add_unless (fuel + 1) { counter := u } a u
      = some { ret := u, cell := { counter := u }, cas := [] } := by
  simp [__atomic_add_unless, add_unless_loop, atomic_read]

theorem unforbidden_outcome (fuel : Nat) (c a u : Int) (h : c ≠ u) :
    __atomic_add_unless (fuel + 1) { counter := c } a u
      = some { ret := c, cell := { counter := wrap32 (c + a) },
               cas := [{ expected := c, desired := wrap32 (c + a), observed := c }] } := by
  simp [__atomic_add_unless, add_unless_loop, atomic_read, atomic_cmpxchg, cmpxchg, h]

/-- C2: when the cell holds c different from u and nothing else touches the
cell, `__atomic_add_unless` returns c and leaves the counter at c + a wrapped
to 32 bits, after a single successful compare-and-swap; the returned value and
the cell are those of atomic_fetch_add. -/
theorem add_unless_as_fetch_add (fuel : Nat) (c a u : Int) (h : c ≠ u) :
    __atomic_add_unless (fuel + 1) { counter := c } a u
      = some { ret := c, cell := { counter := wrap32 (c + a) },
               cas := [{ expected := c, desired := wrap32 (c + a), observed := c }] }
    ∧ (__atomic_add_unless (fuel + 1) { counter := c } a u).map (fun o => (o.ret, o.cell))
      = atomic_fetch_add (fuel + 1) a { counter := c } := by
  simp [__atomic_add_unless, add_unless_loop, atomic_read, atomic_cmpxchg, cmpxchg, h,
    atomic_fetch_add, fetch_add_loop]

/-- A run from the top of the range with forbidden value 0: the sum wraps. -/
theorem add_unless_as_fetch_add_witness :
    (2147483647 : Int) ≠ 0 ∧
    (__atomic_add_unless 1 { counter := 2147483647 } 1 0
      = some { ret := 2147483647, cell := { counter := wrap32 (2147483647 + 1) },
               cas := [{ expected := 2147483647, desired := wrap32 (2147483647 + 1),
                         observed := 2147483647 }] }
    ∧ (__atomic_add_unless 1 { counter := 2147483647 } 1 0).map (fun o => (o.ret, o.cell))
      = atomic_fetch_add 1 1 { counter := 2147483647 }) :=
  ⟨by decide, add_unless_as_fetch_add 0 2147483647 1 0 (by decide)⟩

/-! ### The forbidden check on every iteration -/

theorem halted_step (a u : Int) (v : atomic_t) (f : Frame) (h : Halted u f) :
    (step a u v f).2.cas = f.cas ∧ (step a u v f).2.pc = .ret u
      ∧ Halted u (step a u v f).2 := by
  obtain ⟨h1, h2, h3⟩ := h
  rcases h3 with h3 | h3
  · have e1 : step a u v f = (v, { pc := .ret u, cas := f.cas }) := by
      simp [step, h3]
    rw [e1]
    exact ⟨rfl, rfl, h1, h2, Or.inr rfl⟩
  · have e1 : step a u v f = (v, f) := by
      simp [step, h3]
    rw [e1]
    exact ⟨rfl, h3, h1, h2, Or.inr h3⟩

theorem returned_run (a u : Int) (es : List Event) :
    ∀ (s : atomic_t × Frame) (c : Int), s.2.pc = .ret c →
      (run_events a u es s).2 = s.2 := by
  induction es with
  | nil => intro s c _; rfl
  | cons e es ih =>
    intro s c h
    cases e with
    | call =>
      have e1 : step a u s.1 s.2 = (s.1, s.2) := by simp [step, h]
      simp only [run_events]
      rw [e1]
      exact ih (s.1, s.2) c h
    | store w =>
      simp only [run_events]
      exact ih (atomic_set s.1 w, s.2) c h

theorem halted_run (a u : Int) (es : List Event) :
    ∀ (s : atomic_t × Frame), Halted u s.2 →
      (run_events a u es s).2.cas = s.2.cas
      ∧ (Event.call ∈ es → (run_events a u es s).2.pc = .ret u) := by
  induction es with
  | nil => intro s _; exact ⟨rfl, by simp⟩
  | cons e es ih =>
    intro s h
    cases e with
    | call =>
      obtain ⟨k1, k2, _⟩ := halted_step a u s.1 s.2 h
      have e1 := returned_run a u es (step a u s.1 s.2) u k2
      simp only [run_events]
      rw [e1]
      exact ⟨k1, fun _ => k2⟩
    | store w =>
      obtain ⟨i1, i3⟩ := ih (atomic_set s.1 w, s.2) h
      refine ⟨by simpa only [run_events] using i1, ?_⟩
      intro hc
      simp only [run_events]
      apply i3
      simpa using hc

theorem clean_or_halted_step (a u : Int) (v : atomic_t) (f : Frame)
    (h : Clean u f ∨ Halted u f) :
    Clean u (step a u v f).2 ∨ Halted u (step a u v f).2 := by
  rcases h with h | h
  · obtain ⟨h1, h2⟩ := h
    cases hpc : f.pc with
    | entry =>
      left
      have e1 : step a u v f = (v, { pc := .loop (atomic_read v), cas := f.cas }) := by
        simp [step, hpc]
      rw [e1]
      refine ⟨h1, Or.inr ?_⟩
      rcases h2 with ⟨c, hc⟩ | h2
      · rw [hpc] at hc; cases hc
      · exact h2
    | ret c =>
      left
      have e1 : step a u v f = (v, f) := by simp [step, hpc]
      rw [e1]
      exact ⟨h1, Or.inl ⟨c, hpc⟩⟩
    | loop c =>
      have h2 : ∀ x ∈ f.cas, x.observed ≠ x.expected := by
        rcases h2 with ⟨d, hd⟩ | h2
        · rw [hpc] at hd; cases hd
        · exact h2
      by_cases hcu : c = u
      · left
        have e1 : step a u v f = (v, { pc := .ret c, cas := f.cas }) := by
          simp [step, hpc, hcu]
        rw [e1]
        exact ⟨h1, Or.inl ⟨c, rfl⟩⟩
      · by_cases hvc : v.counter = c
        · left
          have e1 : step a u v f = ({ counter := wrap32 (c + a) },
              { pc := .ret c, cas := f.cas ++
                [{ expected := c, desired := wrap32 (c + a), observed := c }] }) := by
            simp [step, hpc, hcu, atomic_cmpxchg, cmpxchg, hvc]
          rw [e1]
          refine ⟨?_, Or.inl ⟨c, rfl⟩⟩
          intro x hx
          rcases List.mem_append.1 hx with hx | hx
          · exact h1 x hx
          · simp at hx; subst hx; exact hcu
        · have e1 : step a u v f = (v,
              { pc := .loop v.counter, cas := f.cas ++
                [{ expected := c, desired := wrap32 (c + a), observed := v.counter }] }) := by
            simp [step, hpc, hcu, atomic_cmpxchg, cmpxchg, hvc]
          rw [e1]
          have hfail : ∀ x ∈ f.cas ++
              [({ expected := c, desired := wrap32 (c + a), observed := v.counter } : CasCall)],
              x.observed ≠ x.expected := by
            intro x hx
            rcases List.mem_append.1 hx with hx | hx
            · exact h2 x hx
            · simp at hx; subst hx; exact hvc
          by_cases hvu : v.counter = u
          · right
            exact ⟨⟨f.cas, _, rfl, hvu, h1⟩, hfail, Or.inl (by rw [hvu])⟩
          · left
            refine ⟨?_, Or.inr hfail⟩
            intro x hx
            rcases List.mem_append.1 hx with hx | hx
            · exact h1 x hx
            · simp at hx; subst hx; exact hvu
  · exact Or.inr (halted_step a u v f h).2.2

theorem clean_or_halted_run (a u : Int) (es : List Event) :
    ∀ (s : atomic_t × Frame), Clean u s.2 ∨ Halted u s.2 →
      Clean u (run_events a u es s).2 ∨ Halted u (run_events a u es s).2 := by
  induction es with
  | nil => intro s h; exact h
  | cons e es ih =>
    intro s h
    cases e with
    | call => exact ih (step a u s.1 s.2) (clean_or_halted_step a u s.1 s.2 h)
    | store w => exact ih (atomic_set s.1 w, s.2) h

theorem run_events_append (a u : Int) (es es2 : List Event) :
    ∀ (s : atomic_t × Frame),
      run_events a u (es ++ es2) s = run_events a u es2 (run_events a u es s) := by
  induction es with
  | nil => intro s; rfl
  | cons e es ih =>
    intro s
    cases e with
    | call => exact ih (step a u s.1 s.2)
    | store w => exact ih (atomic_set s.1 w, s.2)

/-- C3: the forbidden check is made on every pass of the loop. In every run of
a call against an arbitrary environment, once some compare-and-swap of the
call has observed u: that invocation is the last of the log and the only one
that observed u, it failed (its expected value differs from u), the call is
about to return u or has returned it, no invocation of the log succeeded, and
however the run continues the log gains no entry and the first further step of
the call returns u. -/
theorem add_unless_rechecks_forbidden (a u : Int) (v : atomic_t) (es es2 : List Event)
    (h : ∃ e ∈ (run_events a u es (v, Frame.start)).2.cas, e.observed = u) :
    (∃ l e, (run_events a u es (v, Frame.start)).2.cas = l ++ [e]
        ∧ e.observed = u ∧ e.expected ≠ u ∧ ∀ x ∈ l, x.observed ≠ u)
    ∧ ((run_events a u es (v, Frame.start)).2.pc = .loop u
        ∨ (run_events a u es (v, Frame.start)).2.pc = .ret u)
    ∧ (∀ x ∈ (run_events a u es (v, Frame.start)).2.cas, x.succeeded = false)
    ∧ (run_events a u (es ++ es2) (v, Frame.start)).2.cas
        = (run_events a u es (v, Frame.start)).2.cas
    ∧ (Event.call ∈ es2 → (run_events a u (es ++ es2) (v, Frame.start)).2.pc = .ret u) := by
  have h0 : Clean u (v, Frame.start).2 ∨ Halted u (v, Frame.start).2 :=
    Or.inl ⟨by simp [Frame.start], Or.inr (by simp [Frame.start])⟩
  rcases clean_or_halted_run a u es (v, Frame.start) h0 with hc | hh
  · obtain ⟨e, he, heu⟩ := h
    exact absurd heu (hc.1 e he)
  · obtain ⟨⟨l, e, h1, h2, h3⟩, h4, h5⟩ := hh
    have h6 := halted_run a u es2 (run_events a u es (v, Frame.start))
      ⟨⟨l, e, h1, h2, h3⟩, h4, h5⟩
    rw [run_events_append]
    refine ⟨⟨l, e, h1, h2, ?_, h3⟩, h5, ?_, h6.1, h6.2⟩
    · intro hx
      apply h4 e (by rw [h1]; simp)
      rw [h2, hx]
    · intro x hx
      simp [CasCall.succeeded, h4 x hx]

/-- A run against a hostile store: the call reads 3, another context stores 5, the
compare-and-swap of the call fails and observes the forbidden value 5; after a
further store of 7 the next step of the call returns 5. -/
theorem add_unless_rechecks_forbidden_witness :
    (∃ e ∈ (run_events 1 5 [Event.call, Event.store 5, Event.call]
        ({ counter := 3 }, Frame.start)).2.cas, e.observed = 5)
    ∧ (run_events 1 5 ([Event.call, Event.store 5, Event.call] ++ [Event.store 7, Event.call])
        ({ counter := 3 }, Frame.start)).2.pc = .ret 5 :=
  ⟨⟨{ expected := 3, desired := 4, observed := 5 }, by decide, rfl⟩,
   (add_unless_rechecks_forbidden 1 5 { counter := 3 }
      [Event.call, Event.store 5, Event.call] [Event.store 7, Event.call]
      ⟨{ expected := 3, desired := 4, observed := 5 }, by decide, rfl⟩).2.2.2.2 (by decide)⟩

/-! ### Backend equivalence -/

theorem add_unless_eq_fallback (fuel : Nat) (v : atomic_t) (a u : Int) :
    ∃ o, __atomic_add_unless (fuel + 1) v a u = some o
      ∧ (o.ret, !o.wrote, o.cell) = fallback_add_unless v a u := by
  by_cases h : v.counter = u
  · have e : __atomic_add_unless (fuel + 1) v a u
        = some { ret := v.counter, cell := v, cas := [] } := by
      simp [__atomic_add_unless, add_unless_loop, atomic_read, h]
    exact ⟨_, e, by simp [fallback_add_unless, h, Outcome.wrote]⟩
  · have e : __atomic_add_unless (fuel + 1) v a u
        = some { ret := v.counter, cell := { counter := wrap32 (v.counter + a) },
                 cas := [{ expected := v.counter, desired := wrap32 (v.counter + a),
                           observed := v.counter }] } := by
      simp [__atomic_add_unless, add_unless_loop, atomic_read, atomic_cmpxchg, cmpxchg, h]
    exact ⟨_, e, by simp [fallback_add_unless, h, Outcome.wrote, CasCall.succeeded]⟩

/-- C4: replayed single-threaded from any cell, any finite sequence of
add_unless(a, u) calls gives, on the compare-and-swap backend with any positive
fuel per call, a result, and that result is the one of the fallback backend:
the same return values, the same decisions to skip the write, and the same
final cell. -/
theorem replay_cas_eq_fallback (fuel : Nat) (ops : List (Int × Int)) (v : atomic_t) :
    replay_cas (fuel + 1) ops v = some (replay_fallback ops v) := by
  induction ops generalizing v with
  | nil => rfl
  | cons op ops ih =>
    obtain ⟨a, u⟩ := op
    obtain ⟨o, h1, h2⟩ := add_unless_eq_fallback fuel v a u
    have h3 : (fallback_add_unless v a u).1 = o.ret := by rw [← h2]
    have h4 : (fallback_add_unless v a u).2.1 = !o.wrote := by rw [← h2]
    have h5 : (fallback_add_unless v a u).2.2 = o.cell := by rw [← h2]
    simp only [replay_cas, replay_fallback, h1, ih o.cell, h3, h4, h5]

/-! ### Derived operations -/

/-- C5: for a cell holding an int c and an int i, atomic_inc_and_test is true
exactly when c = -1, atomic_dec_and_test exactly when c = 1, and
atomic_sub_and_test exactly when c = i, INT_MIN included; each result is
(r == 0) for the value r of one atomic_add_return with delta 1, -1 and
-(int)i, and the cell is left holding r. -/
theorem test_ops_exact (c i : Int) (hc : InRange c) (hi : InRange i) :
    ((atomic_inc_and_test { counter := c }).1 = true ↔ c = -1)
    ∧ ((atomic_dec_and_test { counter := c }).1 = true ↔ c = 1)
    ∧ ((atomic_sub_and_test i { counter := c }).1 = true ↔ c = i)
    ∧ atomic_inc_and_test { counter := c }
        = (decide ((atomic_add_return 1 { counter := c }).1 = 0),
           { counter := (atomic_add_return 1 { counter := c }).1 })
    ∧ atomic_dec_and_test { counter := c }
        = (decide ((atomic_add_return (-1) { counter := c }).1 = 0),
           { counter := (atomic_add_return (-1) { counter := c }).1 })
    ∧ atomic_sub_and_test i { counter := c }
        = (decide ((atomic_add_return (wrap32 (-i)) { counter := c }).1 = 0),
           { counter := (atomic_add_return (wrap32 (-i)) { counter := c }).1 }) := by
  have hw : wrap32 i = i := by
    unfold InRange INT_MIN INT_MAX at hi
    unfold wrap32
    omega
  unfold InRange INT_MIN INT_MAX at hc hi
  refine ⟨?_, ?_, ?_, ?_, ?_, ?_⟩
  · simp only [atomic_inc_and_test, atomic_inc_return, atomic_add_return, decide_eq_true_eq,
      wrap32]
    omega
  · simp only [atomic_dec_and_test, atomic_dec_return, atomic_add_return, decide_eq_true_eq,
      wrap32]
    omega
  · simp only [atomic_sub_and_test, atomic_sub_return, atomic_add_return, decide_eq_true_eq,
      wrap32]
    omega
  · rfl
  · rfl
  · simp only [atomic_sub_and_test, atomic_sub_return, hw]
    rfl

/-- The test operations at the low end of the range: subtracting INT_MIN from a cell
holding INT_MIN gives zero although -(int)INT_MIN wraps. -/
theorem test_ops_exact_witness :
    InRange INT_MIN ∧ InRange INT_MIN
    ∧ ((atomic_sub_and_test INT_MIN { counter := INT_MIN }).1 = true ↔ INT_MIN = INT_MIN) :=
  ⟨by decide, by decide, (test_ops_exact INT_MIN INT_MIN (by decide) (by decide)).2.2.1⟩

/-- C6: atomic_add_negative(a, v) is true exactly when the value returned by
one atomic_add_return(a, v), the sum c + a wrapped to a signed 32-bit
integer, is negative, and the cell is left holding that wrapped sum; at
c = INT_MAX, a = 1 the answer is true. -/
theorem add_negative_exact (c a : Int) :
    ((atomic_add_negative a { counter := c }).1 = true ↔ wrap32 (c + a) < 0)
    ∧ (atomic_add_negative a { counter := c }).1
        = decide ((atomic_add_return a { counter := c }).1 < 0)
    ∧ (atomic_add_return a { counter := c }).1 = wrap32 (c + a)
    ∧ (atomic_add_negative a { counter := c }).2 = { counter := wrap32 (c + a) }
    ∧ (atomic_add_negative 1 { counter := INT_MAX }).1 = true := by
  refine ⟨?_, rfl, rfl, rfl, by decide⟩
  simp [atomic_add_negative, atomic_add_return]

/-- C7: for every int x and every prior cell, atomic_set followed by
atomic_read yields x, and a cell made with ATOMIC_INIT(x) reads back x. -/
theorem set_read_roundtrip (v : atomic_t) (x : Int) (hx : InRange x) :
    atomic_read (atomic_set v x) = x ∧ atomic_read (ATOMIC_INIT x) = x := by
  unfold InRange INT_MIN INT_MAX at hx
  simp only [atomic_read, atomic_set, ATOMIC_INIT, wrap32]
  omega

/-- The round trip at INT_MIN and at INT_MAX. -/
theorem set_read_roundtrip_witness :
    (InRange INT_MIN ∧ atomic_read (atomic_set { counter := 7 } INT_MIN) = INT_MIN
      ∧ atomic_read (ATOMIC_INIT INT_MIN) = INT_MIN)
    ∧ (InRange INT_MAX ∧ atomic_read (atomic_set { counter := -1 } INT_MAX) = INT_MAX
      ∧ atomic_read (ATOMIC_INIT INT_MAX) = INT_MAX) :=
  ⟨⟨by decide, set_read_roundtrip { counter := 7 } INT_MIN (by decide)⟩,
   ⟨by decide, set_read_roundtrip { counter := -1 } INT_MAX (by decide)⟩⟩

/-! ### Wrap-around at the ends of the range -/

/-- C8: the addition of `__atomic_add_unless` wraps. For c different from u
the call returns c and stores wrap32 (c + a), a value of the int range that
differs from c + a by a multiple of 2^32; INT_MAX + 1 is stored as INT_MIN and
INT_MIN - 1 as INT_MAX. -/
theorem add_unless_wraps (fuel : Nat) (c a u : Int) (h : c ≠ u) :
    (∃ o, __atomic_add_unless (fuel + 1) { counter := c } a u = some o
      ∧ o.ret = c ∧ o.cell.counter = wrap32 (c + a))
    ∧ InRange (wrap32 (c + a))
    ∧ (wrap32 (c + a) - (c + a)) % 4294967296 = 0
    ∧ wrap32 (INT_MAX + 1) = INT_MIN
    ∧ wrap32 (INT_MIN + -1) = INT_MAX := by
  refine ⟨⟨_, (unforbidden_outcome fuel c a u h), rfl, rfl⟩, ?_, ?_, by decide, by decide⟩
  · unfold InRange INT_MIN INT_MAX wrap32
    omega
  · unfold wrap32
    omega

/-- The two boundary runs: from INT_MAX with delta 1 and from INT_MIN
with delta -1, the forbidden value being 0. -/
theorem add_unless_wraps_witness :
    (INT_MAX ≠ 0 ∧ ∃ o, __atomic_add_unless 1 { counter := INT_MAX } 1 0 = some o
      ∧ o.ret = INT_MAX ∧ o.cell.counter = wrap32 (INT_MAX + 1))
    ∧ (INT_MIN ≠ 0 ∧ ∃ o, __atomic_add_unless 1 { counter := INT_MIN } (-1) 0 = some o
      ∧ o.ret = INT_MIN ∧ o.cell.counter = wrap32 (INT_MIN + -1)) :=
  ⟨⟨by decide, (add_unless_wraps 0 INT_MAX 1 0 (by decide)).1⟩,
   ⟨by decide, (add_unless_wraps 0 INT_MIN (-1) 0 (by decide)).1⟩⟩

/-! ### Decrement and test, many callers -/

theorem dec_and_test_calls_append (m n : Nat) :
    ∀ v : atomic_t, dec_and_test_calls (m + n) v
      = ((dec_and_test_calls m v).1 ++ (dec_and_test_calls n (dec_and_test_calls m v).2).1,
         (dec_and_test_calls n (dec_and_test_calls m v).2).2) := by
  induction m with
  | zero => intro v; simp [dec_and_test_calls]
  | succ m ih =>
    intro v
    have e : m + 1 + n = (m + n) + 1 := by omega
    rw [e]
    simp only [dec_and_test_calls, ih, List.cons_append]

theorem dec_and_test_calls_below (n : Nat) :
    ∀ j : Nat, 1 ≤ j → j + n ≤ 4294967296 →
      dec_and_test_calls n { counter := wrap32 (1 - j) }
        = (List.replicate n false, { counter := wrap32 (1 - j - n) }) := by
  induction n with
  | zero =>
    intro j _ _
    have e : wrap32 (1 - (j : Int) - ((0 : Nat) : Int)) = wrap32 (1 - j) := by simp
    rw [e]
    rfl
  | succ n ih =>
    intro j h1 h2
    have e1 : wrap32 (wrap32 (1 - (j : Int)) + -1) = wrap32 (1 - ((j + 1 : Nat) : Int)) := by
      unfold wrap32; push_cast; omega
    have e2 : wrap32 (1 - ((j + 1 : Nat) : Int)) ≠ 0 := by
      unfold wrap32; push_cast; omega
    have e3 : wrap32 (1 - ((j + 1 : Nat) : Int) - (n : Int))
        = wrap32 (1 - (j : Int) - ((n + 1 : Nat) : Int)) := by
      congr 1; push_cast; ring
    simp only [dec_and_test_calls, atomic_dec_and_test, atomic_dec_return, atomic_add_return,
      e1, e2, decide_False, ih (j + 1) (by omega) (by omega), e3, List.replicate_succ]

theorem dec_and_test_first :
    atomic_dec_and_test { counter := 1 } = (true, { counter := wrap32 (1 - (1 : Nat)) }) := by
  decide

/-- The amended C9: for 1 ≤ n ≤ 2^32, of n atomic_dec_and_test calls applied
one after the other to a cell initialised to 1, the first returns true and
every other returns false, so exactly one call returns true. -/
theorem dec_and_test_once (n : Nat) (h1 : 1 ≤ n) (h2 : n ≤ 4294967296) :
    (dec_and_test_calls n (ATOMIC_INIT 1)).1 = true :: List.replicate (n - 1) false
    ∧ (dec_and_test_calls n (ATOMIC_INIT 1)).1.count true = 1 := by
  obtain ⟨m, rfl⟩ : ∃ m, n = m + 1 := ⟨n - 1, by omega⟩
  have e0 : ATOMIC_INIT 1 = { counter := 1 } := by decide
  have e : (dec_and_test_calls (m + 1) (ATOMIC_INIT 1)).1 = true :: List.replicate m false := by
    rw [e0]
    simp only [dec_and_test_calls, dec_and_test_first,
      dec_and_test_calls_below m 1 (le_refl 1) (by omega)]
  refine ⟨by simpa using e, ?_⟩
  rw [e]
  simp [List.count_replicate]

/-- Two runs of decrement and test: three callers, and 2^32 callers. -/
theorem dec_and_test_once_witness :
    ((1 ≤ 3 ∧ 3 ≤ 4294967296) ∧
      (dec_and_test_calls 3 (ATOMIC_INIT 1)).1 = true :: List.replicate (3 - 1) false)
    ∧ (dec_and_test_calls 4294967296 (ATOMIC_INIT 1)).1.count true = 1 :=
  ⟨⟨⟨by decide, by decide⟩, (dec_and_test_once 3 (by decide) (by decide)).1⟩,
   (dec_and_test_once 4294967296 (by decide) (le_refl _)).2⟩

theorem dec_and_test_wrapped (k : Nat) (h1 : 1 + k ≤ 4294967296)
    (h2 : wrap32 (1 - ((1 : Nat) : Int) - (k : Int)) = 1) :
    (dec_and_test_calls ((1 + k) + 1) { counter := 1 }).1.count true = 2 := by
  have e3 : dec_and_test_calls 1 { counter := 1 }
      = ([true], { counter := wrap32 (1 - (1 : Nat)) }) := by
    decide
  have e4 : dec_and_test_calls 1 { counter := 1 } = ([true], { counter := 0 }) := by
    decide
  rw [dec_and_test_calls_append (1 + k) 1, dec_and_test_calls_append 1 k, e3,
    dec_and_test_calls_below k 1 (le_refl 1) h1]
  simp only [h2, e4]
  simp [List.count_replicate]

/-- With 2^32 + 1 callers exactly-once fails: the counter has wrapped back to 1
after 2^32 decrements, so the last call returns true as the first did, and two
of the calls return true. -/
theorem dec_and_test_twice :
    (dec_and_test_calls 4294967297 (ATOMIC_INIT 1)).1.count true = 2 := by
  have e0 : ATOMIC_INIT 1 = { counter := 1 } := by decide
  have e1 : (4294967297 : Nat) = (1 + 4294967295) + 1 := by norm_num
  have e2 : wrap32 (1 - ((1 : Nat) : Int) - ((4294967295 : Nat) : Int)) = 1 := by decide
  rw [e0, e1]
  exact dec_and_test_wrapped 4294967295 (by norm_num) e2

/-! ### No lost update -/

theorem wrap32_add_left (x y : Int) : wrap32 (wrap32 x + y) = wrap32 (x + y) := by
  unfold wrap32; omega

theorem running_sums_append (l : List Int) :
    ∀ (v0 d : Int), running_sums v0 (l ++ [d]) = running_sums v0 l ++ [wrap32 (v0 + l.sum)] := by
  induction l with
  | nil => intro v0 d; simp [running_sums]
  | cons x l ih =>
    intro v0 d
    have e := ih (v0 + x) d
    rw [add_assoc] at e
    show wrap32 v0 :: running_sums (v0 + x) (l ++ [d])
      = wrap32 v0 :: (running_sums (v0 + x) l ++ [wrap32 (v0 + (x + l.sum))])
    rw [e]

theorem step_returned (a u c : Int) (v : atomic_t) (f : Frame) (h : f.pc = .ret c) :
    step a u v f = (v, f) := by
  simp [step, h]

theorem step_pending (a u : Int) (v : atomic_t) (f : Frame) (hf : Pending u f.pc)
    (hv : v.counter ≠ u) :
    ((step a u v f).1 = v ∧ Pending u (step a u v f).2.pc)
    ∨ ((step a u v f).1 = { counter := wrap32 (v.counter + a) }
        ∧ (step a u v f).2.pc = .ret v.counter) := by
  rcases hf with hf | ⟨c, hc, hf⟩
  · left
    have e : step a u v f = (v, { pc := .loop (atomic_read v), cas := f.cas }) := by
      simp [step, hf]
    rw [e]
    exact ⟨rfl, Or.inr ⟨v.counter, hv, rfl⟩⟩
  · by_cases hvc : v.counter = c
    · right
      have e : step a u v f = ({ counter := wrap32 (c + a) },
          { pc := .ret c, cas := f.cas ++
            [{ expected := c, desired := wrap32 (c + a), observed := c }] }) := by
        simp [step, hf, hc, atomic_cmpxchg, cmpxchg, hvc]
      rw [e, hvc]
      exact ⟨rfl, rfl⟩
    · left
      have e : step a u v f = (v,
          { pc := .loop v.counter, cas := f.cas ++
            [{ expected := c, desired := wrap32 (c + a), observed := v.counter }] }) := by
        simp [step, hf, hc, atomic_cmpxchg, cmpxchg, hvc]
      rw [e]
      exact ⟨rfl, Or.inr ⟨v.counter, hv, rfl⟩⟩

theorem sys_step_none (u : Int) (s : Sys) (i : Nat) (h : s.callers[i]? = none) :
    sys_step u s i = s := by
  simp [sys_step, h]

theorem sys_step_cell (u : Int) (s : Sys) (i : Nat) (k : Caller) (h : s.callers[i]? = some k) :
    (sys_step u s i).cell = (step k.a u s.cell k.frame).1 := by
  simp [sys_step, h]

theorem sys_step_callers_ne (u : Int) (s : Sys) (i j : Nat) (hij : i ≠ j) :
    (sys_step u s i).callers[j]? = s.callers[j]? := by
  unfold sys_step
  cases h : s.callers[i]? with
  | none => rfl
  | some k => simp [List.getElem?_set_ne hij]

theorem sys_step_callers_self (u : Int) (s : Sys) (i : Nat) (k : Caller)
    (h : s.callers[i]? = some k) :
    (sys_step u s i).callers[i]? = some { a := k.a, frame := (step k.a u s.cell k.frame).2 } := by
  have hlt : i < s.callers.length := by
    rcases Nat.lt_or_ge i s.callers.length with h1 | h1
    · exact h1
    · rw [List.getElem?_eq_none h1] at h; cases h
  simp [sys_step, h, List.getElem?_set_self hlt]

theorem sys_step_delta (u : Int) (s : Sys) (i j : Nat) :
    ((sys_step u s i).callers[j]?).map (fun k => k.a) = (s.callers[j]?).map (fun k => k.a) := by
  by_cases hij : i = j
  · subst hij
    cases h : s.callers[i]? with
    | none => rw [sys_step_none u s i h, h]
    | some k => rw [sys_step_callers_self u s i k h]; rfl
  · rw [sys_step_callers_ne u s i j hij]

theorem lin_init (u v0 : Int) (ds : List Int) : Lin u v0 ds (sys_init v0 ds) [] where
  cell := by simp [sys_init, ATOMIC_INIT]
  sums := by simp [running_sums]
  done := by simp
  pending := by
    intro j pc h _
    simp only [Sys.pcOf, sys_init, List.getElem?_map, Option.map_map] at h
    cases hd : ds[j]? with
    | none => rw [hd] at h; cases h
    | some d =>
      rw [hd] at h
      simp [Frame.start] at h
      exact Or.inl h.symm
  nodup := by simp
  deltas := by
    intro j
    simp [sys_init, List.getElem?_map, Option.map_map, Function.comp_def]

theorem lin_step (u v0 : Int) (ds : List Int) (s : Sys) (hist : List (Nat × Int))
    (h : Lin u v0 ds s hist) (i : Nat) (hv : s.cell.counter ≠ u) :
    ∃ hist2, Lin u v0 ds (sys_step u s i) hist2 := by
  cases hk : s.callers[i]? with
  | none => rw [sys_step_none u s i hk]; exact ⟨hist, h⟩
  | some k =>
    have hpc : s.pcOf i = some k.frame.pc := by simp [Sys.pcOf, hk]
    have hne : ∀ j, i ≠ j → (sys_step u s i).pcOf j = s.pcOf j := by
      intro j hij
      simp [Sys.pcOf, sys_step_callers_ne u s i j hij]
    have hself : (sys_step u s i).pcOf i = some (step k.a u s.cell k.frame).2.pc := by
      simp [Sys.pcOf, sys_step_callers_self u s i k hk]
    have hdel : ∀ j : Nat, ((sys_step u s i).callers[j]?).map (fun k : Caller => k.a) = ds[j]? :=
      fun j => (sys_step_delta u s i j).trans (h.deltas j)
    have hcell := sys_step_cell u s i k hk
    by_cases hin : ∃ x ∈ hist, x.1 = i
    · obtain ⟨x, hx, hxi⟩ := hin
      have hret : k.frame.pc = .ret x.2 := by
        have := h.done x hx
        rw [hxi, hpc] at this
        exact Option.some.inj this
      have e := step_returned k.a u x.2 s.cell k.frame hret
      have hall : ∀ j, (sys_step u s i).pcOf j = s.pcOf j := by
        intro j
        by_cases hij : i = j
        · subst hij; rw [hself, e, hpc]
        · exact hne j hij
      refine ⟨hist, ⟨by rw [hcell, e]; exact h.cell, h.sums, ?_, ?_, h.nodup, hdel⟩⟩
      · intro y hy; rw [hall]; exact h.done y hy
      · intro j pc hj hno; rw [hall] at hj; exact h.pending j pc hj hno
    · have hin : ∀ x ∈ hist, x.1 ≠ i := by
        intro x hx hxi; exact hin ⟨x, hx, hxi⟩
      have hp : Pending u k.frame.pc := h.pending i _ hpc hin
      rcases step_pending k.a u s.cell k.frame hp hv with ⟨e1, e2⟩ | ⟨e1, e2⟩
      · refine ⟨hist, ⟨by rw [hcell, e1]; exact h.cell, h.sums, ?_, ?_, h.nodup, hdel⟩⟩
        · intro y hy
          rw [hne y.1 (Ne.symm (hin y hy))]
          exact h.done y hy
        · intro j pc hj hno
          by_cases hij : i = j
          · subst hij
            rw [hself] at hj
            rw [← Option.some.inj hj]
            exact e2
          · rw [hne j hij] at hj
            exact h.pending j pc hj hno
      · have hd : ds.getD i 0 = k.a := by
          have := h.deltas i
          rw [hk] at this
          simp only [Option.map_some'] at this
          simp [List.getD, ← this]
        refine ⟨hist ++ [(i, s.cell.counter)], ⟨?_, ?_, ?_, ?_, ?_, hdel⟩⟩
        · rw [hcell, e1]
          simp only [List.map_append, List.sum_append, List.map_cons, List.map_nil,
            List.sum_cons, List.sum_nil]
          rw [h.cell, wrap32_add_left, hd]
          congr 1
          ring
        · simp only [List.map_append, List.map_cons, List.map_nil]
          rw [running_sums_append, h.sums, h.cell]
        · intro y hy
          rcases List.mem_append.1 hy with hy | hy
          · rw [hne y.1 (Ne.symm (hin y hy))]
            exact h.done y hy
          · simp only [List.mem_singleton] at hy
            subst hy
            rw [hself, e2]
        · intro j pc hj hno
          have hij : i ≠ j := fun e => hno (i, s.cell.counter) (by simp) e
          rw [hne j hij] at hj
          exact h.pending j pc hj (fun x hx => hno x (List.mem_append_left _ hx))
        · simp only [List.map_append, List.map_cons, List.map_nil]
          rw [List.nodup_append]
          refine ⟨h.nodup, by simp, ?_⟩
          intro a ha hb
          simp only [List.mem_singleton] at hb
          subst hb
          obtain ⟨x, hx, hxa⟩ := List.mem_map.1 ha
          exact hin x hx hxa

theorem lin_run (u v0 : Int) (ds : List Int) (sched : List Nat) :
    ∀ (s : Sys) (hist : List (Nat × Int)), Lin u v0 ds s hist →
      (∀ x ∈ sys_seen u sched s, x ≠ u) →
      ∃ hist2, Lin u v0 ds (sys_run u sched s) hist2 := by
  induction sched with
  | nil => intro s hist h _; exact ⟨hist, h⟩
  | cons i sched ih =>
    intro s hist h hs
    obtain ⟨hist1, h1⟩ := lin_step u v0 ds s hist h i (hs _ (by simp [sys_seen]))
    exact ih (sys_step u s i) hist1 h1 (fun x hx => hs x (by simp [sys_seen, hx]))

theorem returned_of_pcOf (s : Sys) (i : Nat) (r : Int) (h : s.pcOf i = some (.ret r)) :
    s.returned i = some r := by
  unfold Sys.pcOf at h
  unfold Sys.returned
  cases hk : s.callers[i]? with
  | none => rw [hk] at h; cases h
  | some k =>
    rw [hk] at h
    have h1 : k.frame.pc = .ret r := Option.some.inj h
    simp [Frame.returned, h1]

theorem map_getD_range (ds : List Int) :
    (List.range ds.length).map (fun i => ds.getD i 0) = ds := by
  apply List.ext_getElem?
  intro i
  by_cases hi : i < ds.length
  · simp [List.getElem?_map, List.getElem?_range hi, List.getD, List.getElem?_eq_getElem hi]
  · have h1 : ds.length ≤ i := Nat.le_of_not_lt hi
    rw [List.getElem?_eq_none h1, List.getElem?_eq_none (by simpa using h1)]

theorem lin_callers (u v0 : Int) (ds : List Int) (s : Sys) (hist : List (Nat × Int))
    (h : Lin u v0 ds s hist) :
    s.callers.map (fun k => k.frame.returned) = (List.range ds.length).map s.returned := by
  apply List.ext_getElem?
  intro i
  have hd := h.deltas i
  by_cases hi : i < ds.length
  · rw [List.getElem?_eq_getElem hi] at hd
    cases hk : s.callers[i]? with
    | none => rw [hk] at hd; cases hd
    | some k =>
      simp [List.getElem?_map, List.getElem?_range hi, hk, Sys.returned]
  · have h1 : ds.length ≤ i := Nat.le_of_not_lt hi
    rw [List.getElem?_eq_none h1] at hd
    have hk : s.callers[i]? = none := by
      cases hk : s.callers[i]? with
      | none => rfl
      | some k => rw [hk] at hd; cases hd
    rw [List.getElem?_map, hk, List.getElem?_eq_none (by simpa using h1)]
    rfl

theorem lin_final (u v0 : Int) (ds : List Int) (s : Sys) (hist : List (Nat × Int))
    (h : Lin u v0 ds s hist) (hdone : s.allReturned) :
    s.cell.counter = wrap32 (v0 + ds.sum)
    ∧ ∃ p : List Nat, p.Perm (List.range ds.length)
      ∧ p.map s.returned = (running_sums v0 (p.map (fun i => ds.getD i 0))).map some
      ∧ (s.callers.map (fun k => k.frame.returned)).Perm
          ((running_sums v0 (p.map (fun i => ds.getD i 0))).map some) := by
  have hmem : ∀ i, i ∈ hist.map (fun x => x.1) ↔ i ∈ List.range ds.length := by
    intro i
    rw [List.mem_range]
    have hd := h.deltas i
    constructor
    · intro hi
      obtain ⟨x, hx, hxi⟩ := List.mem_map.1 hi
      have h1 := h.done x hx
      rw [hxi] at h1
      rcases Nat.lt_or_ge i ds.length with h2 | h2
      · exact h2
      · rw [List.getElem?_eq_none h2] at hd
        unfold Sys.pcOf at h1
        cases hk : s.callers[i]? with
        | none => rw [hk] at h1; cases h1
        | some k => rw [hk] at hd; cases hd
    · intro hi
      rw [List.getElem?_eq_getElem hi] at hd
      cases hk : s.callers[i]? with
      | none => rw [hk] at hd; cases hd
      | some k =>
        have hkm : k ∈ s.callers := List.getElem?_mem hk
        have hr := hdone k hkm
        by_contra hni
        have hp := h.pending i k.frame.pc (by simp [Sys.pcOf, hk])
          (fun x hx hxi => hni (List.mem_map.2 ⟨x, hx, hxi⟩))
        rcases hp with hp | ⟨c, _, hp⟩ <;> simp [Frame.returned, hp] at hr
  have hperm : (hist.map (fun x => x.1)).Perm (List.range ds.length) :=
    (List.perm_ext_iff_of_nodup h.nodup (List.nodup_range _)).2 hmem
  have hmap : hist.map (fun x => ds.getD x.1 0)
      = (hist.map (fun x => x.1)).map (fun i => ds.getD i 0) := by
    rw [List.map_map]; rfl
  have hsum : (hist.map (fun x => ds.getD x.1 0)).sum = ds.sum := by
    rw [hmap, (hperm.map (fun i => ds.getD i 0)).sum_eq, map_getD_range]
  have hret : (hist.map (fun x => x.1)).map s.returned
      = (running_sums v0 ((hist.map (fun x => x.1)).map (fun i => ds.getD i 0))).map some := by
    rw [← hmap, ← h.sums, List.map_map, List.map_map]
    apply List.map_congr_left
    intro x hx
    exact returned_of_pcOf s x.1 x.2 (h.done x hx)
  refine ⟨by rw [h.cell, hsum], hist.map (fun x => x.1), hperm, hret, ?_⟩
  rw [lin_callers u v0 ds s hist h, ← hret]
  exact (hperm.map s.returned).symm

/-- C10: no update is lost. Take N callers of `__atomic_add_unless` with
deltas ds and a common forbidden value u on a cell initialised to v0, and any
interleaving of their reads and compare-and-swap passes in which the cell never
holds u when a step is taken and after which every caller has returned. Then
the cell ends at v0 plus the sum of the deltas, wrapped, and for some ordering
p of the callers the value returned by caller p(k) is v0 plus the deltas of
p(0), ..., p(k-1), wrapped; so the returned values are, as a multiset, those
running sums. -/
theorem add_unless_no_lost_update (u v0 : Int) (ds : List Int) (sched : List Nat)
    (hseen : ∀ x ∈ sys_seen u sched (sys_init v0 ds), x ≠ u)
    (hdone : (sys_run u sched (sys_init v0 ds)).allReturned) :
    (sys_run u sched (sys_init v0 ds)).cell.counter = wrap32 (v0 + ds.sum)
    ∧ ∃ p : List Nat, p.Perm (List.range ds.length)
      ∧ p.map (sys_run u sched (sys_init v0 ds)).returned
          = (running_sums v0 (p.map (fun i => ds.getD i 0))).map some
      ∧ ((sys_run u sched (sys_init v0 ds)).callers.map (fun k => k.frame.returned)).Perm
          ((running_sums v0 (p.map (fun i => ds.getD i 0))).map some) := by
  obtain ⟨hist, h⟩ := lin_run u v0 ds sched (sys_init v0 ds) [] (lin_init u v0 ds) hseen
  exact lin_final u v0 ds _ hist h hdone

/-- A run with three callers (deltas 1, 2, 3 on a cell at 10): callers
0 and 1 both read 10, caller 1 stores 12, the compare-and-swap of caller 0
fails and is retried from 12, and caller 2 runs last; the cell ends at 16. -/
theorem add_unless_no_lost_update_witness :
    (∀ x ∈ sys_seen 0 [0, 1, 1, 0, 0, 2, 2] (sys_init 10 [1, 2, 3]), x ≠ 0)
    ∧ (sys_run 0 [0, 1, 1, 0, 0, 2, 2] (sys_init 10 [1, 2, 3])).allReturned
    ∧ (sys_run 0 [0, 1, 1, 0, 0, 2, 2] (sys_init 10 [1, 2, 3])).cell.counter
        = wrap32 (10 + [1, 2, 3].sum) :=
  ⟨by decide, by decide,
   (add_unless_no_lost_update 0 10 [1, 2, 3] [0, 1, 1, 0, 0, 2, 2] (by decide) (by decide)).1⟩

/-! ### The loop and its step-by-step form agree -/

theorem run_calls_returned (a u c : Int) (n : Nat) :
    ∀ (v : atomic_t) (f : Frame), f.pc = .ret c →
      run_events a u (List.replicate n Event.call) (v, f) = (v, f) := by
  induction n with
  | zero => intro v f _; rfl
  | succ n ih =>
    intro v f h
    simp only [List.replicate_succ, run_events, step_returned a u c v f h]
    exact ih v f h

theorem add_unless_loop_steps (a u : Int) (fuel : Nat) :
    ∀ (v : atomic_t) (c : Int) (log : List CasCall) (o : Outcome),
      add_unless_loop a u fuel v c log = some o →
      run_events a u (List.replicate fuel Event.call) (v, { pc := .loop c, cas := log })
        = (o.cell, { pc := .ret o.ret, cas := o.cas }) := by
  induction fuel with
  | zero => intro v c log o h; simp [add_unless_loop] at h
  | succ fuel ih =>
    intro v c log o h
    simp only [List.replicate_succ, run_events]
    by_cases hcu : c = u
    · have e : step a u v { pc := .loop c, cas := log } = (v, { pc := .ret c, cas := log }) := by
        simp [step, hcu]
      simp only [add_unless_loop, hcu, if_true, Option.some.injEq] at h
      rw [e, run_calls_returned a u c fuel v _ rfl, ← h, hcu]
    · by_cases hvc : v.counter = c
      · have e : step a u v { pc := .loop c, cas := log } = ({ counter := wrap32 (c + a) },
            { pc := .ret c, cas := log ++
              [{ expected := c, desired := wrap32 (c + a), observed := c }] }) := by
          simp [step, hcu, atomic_cmpxchg, cmpxchg, hvc]
        simp [add_unless_loop, hcu, atomic_cmpxchg, cmpxchg, hvc] at h
        rw [e, run_calls_returned a u c fuel _ _ rfl, ← h]
      · have e : step a u v { pc := .loop c, cas := log } = (v,
            { pc := .loop v.counter, cas := log ++
              [{ expected := c, desired := wrap32 (c + a), observed := v.counter }] }) := by
          simp [step, hcu, atomic_cmpxchg, cmpxchg, hvc]
        simp [add_unless_loop, hcu, atomic_cmpxchg, cmpxchg, hvc] at h
        rw [e]
        exact ih v v.counter _ o h

/-- The function `__atomic_add_unless` and the transition function describe the
same call: when the function returns an outcome with some fuel, one step for
the read and one step per unit of fuel, with no other context in between, lead
to the same cell, the same returned value and the same log. -/
theorem add_unless_steps (a u : Int) (fuel : Nat) (v : atomic_t) (o : Outcome)
    (h : __atomic_add_unless fuel v a u = some o) :
    run_events a u (List.replicate (fuel + 1) Event.call) (v, Frame.start)
      = (o.cell, { pc := .ret o.ret, cas := o.cas }) := by
  have e : step a u v Frame.start = (v, { pc := .loop (atomic_read v), cas := [] }) := by
    simp [step, Frame.start]
  simp only [List.replicate_succ, run_events, e]
  exact add_unless_loop_steps a u fuel v (atomic_read v) [] o h

/-! ### Progress of the retry loop -/

theorem wrap32_of_inRange (x : Int) (h : InRange x) : wrap32 x = x := by
  unfold InRange INT_MIN INT_MAX at h
  unfold wrap32
  omega

theorem retry_log_length (a : Int) (os : List Int) :
    ∀ c : Int, (retry_log a c os).length = os.length + 1 := by
  induction os with
  | nil => intro c; rfl
  | cons o os ih => intro c; simp [retry_log, ih o]

theorem retry_log_expected (a : Int) (os : List Int) :
    ∀ c : Int, (retry_log a c os).map (fun e => e.expected) = c :: os := by
  induction os with
  | nil => intro c; rfl
  | cons o os ih => intro c; simp [retry_log, ih o]

theorem retry_log_desired (a : Int) (os : List Int) :
    ∀ c : Int, (retry_log a c os).map (fun e => e.desired)
      = (c :: os).map (fun x => wrap32 (x + a)) := by
  induction os with
  | nil => intro c; rfl
  | cons o os ih => intro c; simp [retry_log, ih o]

theorem retry_log_observed (a : Int) (os : List Int) :
    ∀ c : Int, (retry_log a c os).map (fun e => e.observed)
      = os ++ [(c :: os).getLast (List.cons_ne_nil c os)] := by
  induction os with
  | nil => intro c; rfl
  | cons o os ih =>
    intro c
    simp [retry_log, ih o, List.getLast_cons]

theorem contended_loop (a u : Int) (os : List Int) :
    ∀ (c : Int) (v : atomic_t) (log : List CasCall), c ≠ u →
      (os = [] → v.counter = c) →
      (∀ o ∈ os, InRange o ∧ o ≠ u) → List.Chain (fun x y => x ≠ y) c os →
      run_events a u (interference os ++ [Event.call]) (v, { pc := .loop c, cas := log })
        = ({ counter := wrap32 ((c :: os).getLast (List.cons_ne_nil c os) + a) },
           { pc := .ret ((c :: os).getLast (List.cons_ne_nil c os)),
             cas := log ++ retry_log a c os }) := by
  induction os with
  | nil =>
    intro c v log hc hv _ _
    have hvc : v.counter = c := hv rfl
    simp [interference, run_events, step, hc, atomic_cmpxchg, cmpxchg, hvc, retry_log]
  | cons o os ih =>
    intro c v log hc _ hos hch
    have ho := hos o (List.mem_cons_self o os)
    have hco : c ≠ o := (List.chain_cons.1 hch).1
    have hw : wrap32 o = o := wrap32_of_inRange o ho.1
    have e : step a u (atomic_set v o) { pc := .loop c, cas := log }
        = ({ counter := o }, { pc := .loop o, cas := log ++
            [{ expected := c, desired := wrap32 (c + a), observed := o }] }) := by
      simp [step, hc, atomic_cmpxchg, cmpxchg, atomic_set, hw, Ne.symm hco]
    have h2 := ih o { counter := o }
      (log ++ [{ expected := c, desired := wrap32 (c + a), observed := o }]) ho.2
      (fun _ => rfl) (fun x hx => hos x (List.mem_cons_of_mem o hx)) (List.chain_cons.1 hch).2
    simp only [interference, List.cons_append, run_events, e]
    exact h2.trans (by simp [retry_log, List.getLast_cons])

theorem retry_log_succeeded (a : Int) (os : List Int) :
    ∀ c : Int, List.Chain (fun x y => x ≠ y) c os →
      (retry_log a c os).map CasCall.succeeded = List.replicate os.length false ++ [true] := by
  induction os with
  | nil => intro c _; simp [retry_log, CasCall.succeeded]
  | cons o os ih =>
    intro c h
    have hco : c ≠ o := (List.chain_cons.1 h).1
    simp [retry_log, CasCall.succeeded, ih o (List.chain_cons.1 h).2, Ne.symm hco,
      List.replicate_succ]

theorem getLast_cons_eq_getLastD (c : Int) (os : List Int) :
    (c :: os).getLast (List.cons_ne_nil c os) = os.getLastD c := by
  cases os with
  | nil => rfl
  | cons o os => simp [List.getLastD, List.getLast_cons]

/-- C11: progress of the retry loop. Let the call read o_0 (different from u)
and let its next k attempts be spoilt, the j-th observing o_j, each o_j an int
different from u and from the value just compared against; let the next
attempt be undisturbed. Then the call has returned, its log holds exactly
k + 1 compare-and-swap invocations, the j-th with expected value o_(j-1) and
new value o_(j-1) + a wrapped, the first k failed and the last succeeded, the
value returned is o_k, and the cell holds o_k + a wrapped. With k = 0 the log
holds one invocation. -/
theorem add_unless_retry_progress (a u c0 : Int) (os : List Int) (h0 : c0 ≠ u)
    (hos : ∀ o ∈ os, InRange o ∧ o ≠ u) (hch : List.Chain (fun x y => x ≠ y) c0 os) :
    (run_events a u (contended_run os) ({ counter := c0 }, Frame.start)).2.pc
        = .ret (os.getLastD c0)
    ∧ (run_events a u (contended_run os) ({ counter := c0 }, Frame.start)).2.cas.length
        = os.length + 1
    ∧ (run_events a u (contended_run os) ({ counter := c0 }, Frame.start)).2.cas.map
        (fun e => e.expected) = c0 :: os
    ∧ (run_events a u (contended_run os) ({ counter := c0 }, Frame.start)).2.cas.map
        (fun e => e.desired) = (c0 :: os).map (fun x => wrap32 (x + a))
    ∧ (run_events a u (contended_run os) ({ counter := c0 }, Frame.start)).2.cas.map
        (fun e => e.observed) = os ++ [os.getLastD c0]
    ∧ (run_events a u (contended_run os) ({ counter := c0 }, Frame.start)).2.cas.map
        CasCall.succeeded = List.replicate os.length false ++ [true]
    ∧ (run_events a u (contended_run os) ({ counter := c0 }, Frame.start)).1.counter
        = wrap32 (os.getLastD c0 + a) := by
  have e : step a u { counter := c0 } Frame.start
      = ({ counter := c0 }, { pc := .loop c0, cas := [] }) := by
    simp [step, Frame.start, atomic_read]
  have h := contended_loop a u os c0 { counter := c0 } [] h0 (fun _ => rfl) hos hch
  have hrun : run_events a u (contended_run os) ({ counter := c0 }, Frame.start)
      = ({ counter := wrap32 (os.getLastD c0 + a) },
         { pc := .ret (os.getLastD c0), cas := retry_log a c0 os }) := by
    simp only [contended_run, run_events, e]
    rw [h, getLast_cons_eq_getLastD]
    simp
  rw [hrun]
  refine ⟨rfl, retry_log_length a os c0, retry_log_expected a os c0, retry_log_desired a os c0,
    ?_, retry_log_succeeded a os c0 hch, rfl⟩
  rw [← getLast_cons_eq_getLastD]
  exact retry_log_observed a os c0

/-- Two contended runs with delta 1 and forbidden value 0: a call that reads 3
and is spoilt twice, observing 5 and then 9, returns 9 after three
invocations; an undisturbed call issues one. -/
theorem add_unless_retry_progress_witness :
    ((3 : Int) ≠ 0 ∧ (∀ o ∈ [(5 : Int), 9], InRange o ∧ o ≠ 0)
      ∧ List.Chain (fun x y => x ≠ y) (3 : Int) [5, 9]
      ∧ (run_events 1 0 (contended_run [5, 9]) ({ counter := 3 }, Frame.start)).2.pc = .ret 9
      ∧ (run_events 1 0 (contended_run [5, 9]) ({ counter := 3 }, Frame.start)).2.cas.length = 3)
    ∧ (run_events 1 0 (contended_run []) ({ counter := 3 }, Frame.start)).2.cas.length = 1 :=
  ⟨⟨by decide, by decide, by simp,
    (add_unless_retry_progress 1 0 3 [5, 9] (by decide) (by decide) (by simp)).1,
    (add_unless_retry_progress 1 0 3 [5, 9] (by decide) (by decide) (by simp)).2.1⟩,
   (add_unless_retry_progress 1 0 3 [] (by decide) (by simp) (by simp)).2.1⟩

end Atomic32

/-! # Theorems about the mode check of grvga.c -/

namespace Grvga

theorem clk_loop_spec (p : Nat) (c : Nat → Nat) (left : Nat) :
    ∀ i : Nat, i ≤ clk_loop p c left i ∧ clk_loop p c left i ≤ i + left
      ∧ (clk_loop p c left i < i + left → c (clk_loop p c left i) = p)
      ∧ ∀ j, i ≤ j → j < clk_loop p c left i → c j ≠ p := by
  induction left with
  | zero =>
    intro i
    refine ⟨le_refl _, le_refl _, ?_, ?_⟩
    · intro h; exact absurd h (lt_irrefl _)
    · intro j h1 h2; exact absurd (lt_of_le_of_lt h1 h2) (lt_irrefl _)
  | succ left ih =>
    intro i
    by_cases h : p = c i
    · have e : clk_loop p c (left + 1) i = i := by simp [clk_loop, h]
      rw [e]
      refine ⟨le_refl _, by omega, fun _ => h.symm, ?_⟩
      intro j h1 h2; omega
    · obtain ⟨h1, h2, h3, h4⟩ := ih (i + 1)
      have e : clk_loop p c (left + 1) i = clk_loop p c left (i + 1) := by simp [clk_loop, h]
      rw [e]
      refine ⟨by omega, by omega, fun hlt => h3 (by omega), ?_⟩
      intro j hj1 hj2
      rcases Nat.eq_or_lt_of_le hj1 with e1 | e1
      · subst e1; exact fun hc => h hc.symm
      · exact h4 j e1 hj2

theorem round_depth_some (b d : Nat) (h : round_depth b = some d) :
    b ≤ d ∧ d ∈ [8, 16, 24, 32] ∧ ∀ k ∈ [8, 16, 24, 32], b ≤ k → d ≤ k := by
  unfold round_depth at h
  split_ifs at h <;> simp at h <;> subst h <;> simp <;> omega

theorem round_depth_none (b : Nat) : round_depth b = none ↔ 32 < b := by
  unfold round_depth
  split_ifs <;> simp <;> omega

theorem clamp_res_spec (var : fb_var_screeninfo) :
    1 ≤ (clamp_res var).xres ∧ 1 ≤ (clamp_res var).yres
      ∧ (clamp_res var).bits_per_pixel = var.bits_per_pixel
      ∧ (clamp_res var).pixclock = var.pixclock := by
  unfold clamp_res
  by_cases hx : var.xres = 0 <;> by_cases hy : var.yres = 0 <;> simp [hx, hy] <;> omega

theorem switch_layout_some (b : Nat) (var v : fb_var_screeninfo)
    (h : switch_layout b var = some v) :
    v.xres = var.xres ∧ v.yres = var.yres ∧ v.xres_virtual = var.xres_virtual
      ∧ v.yres_virtual = var.yres_virtual ∧ v.bits_per_pixel = var.bits_per_pixel
      ∧ v.pixclock = var.pixclock ∧ depth_layout b = some v.layout := by
  unfold switch_layout at h
  unfold depth_layout
  split_ifs at h ⊢ <;> simp at h <;> subst h <;> simp [fb_var_screeninfo.layout]

/-- What an accepted mode looks like: when the check returns 0 with var and
info->var distinct, the depth, the resolutions, the virtual resolutions and
the clock selection are normalised from the request, while the colour
bitfields are the layout of the depth of the running mode info->var. -/
theorem check_var_accepts (var : fb_var_screeninfo) (info : fb_info)
    (h : (grvga_check_var var info).1 = 0) :
    (var.bits_per_pixel ≤ (grvga_check_var var info).2.1.bits_per_pixel
      ∧ (grvga_check_var var info).2.1.bits_per_pixel ∈ [8, 16, 24, 32]
      ∧ ∀ k ∈ [8, 16, 24, 32], var.bits_per_pixel ≤ k →
          (grvga_check_var var info).2.1.bits_per_pixel ≤ k)
    ∧ 1 ≤ (grvga_check_var var info).2.1.xres
    ∧ 1 ≤ (grvga_check_var var info).2.1.yres
    ∧ (grvga_check_var var info).2.1.xres_virtual = (grvga_check_var var info).2.1.xres
    ∧ (grvga_check_var var info).2.1.yres_virtual
        = u32 (2 * (grvga_check_var var info).2.1.yres)
    ∧ (∃ i : Nat, i ≤ 3 ∧ (grvga_check_var var info).2.2.par.clk_sel = (i : Int)
        ∧ info.par.clk_vector i = var.pixclock
        ∧ ∀ j < i, info.par.clk_vector j ≠ var.pixclock)
    ∧ depth_layout info.var.bits_per_pixel = some (grvga_check_var var info).2.1.layout := by
  obtain ⟨c1, c2, c3, c4⟩ := clamp_res_spec var
  unfold grvga_check_var at h ⊢
  cases hd : round_depth (clamp_res var).bits_per_pixel with
  | none => simp [hd, EINVAL] at h
  | some d =>
    obtain ⟨d1, d2, d3⟩ := round_depth_some _ d hd
    rw [c3] at d1 d3
    simp only [hd] at h ⊢
    split_ifs at h ⊢ with hm hi
    · simp [ENOMEM] at h
    · cases hs : switch_layout info.var.bits_per_pixel
          { clamp_res var with bits_per_pixel := d, xres_virtual := (clamp_res var).xres,
                               yres_virtual := u32 (2 * (clamp_res var).yres) } with
      | none => simp [hs, EINVAL] at h
      | some v =>
        obtain ⟨s1, s2, s3, s4, s5, s6, s7⟩ := switch_layout_some _ _ v hs
        obtain ⟨_, _, k3, k4⟩ := clk_loop_spec (clamp_res var).pixclock info.par.clk_vector 4 0
        simp only [hs]
        refine ⟨⟨by rw [s5]; exact d1, by rw [s5]; exact d2, fun k hk hle => by
          rw [s5]; exact d3 k hk hle⟩, by rw [s1]; exact c1, by rw [s2]; exact c2,
          by rw [s3, s1], by rw [s4, s2], ?_, s7⟩
        refine ⟨_, hi, rfl, ?_, ?_⟩
        · rw [← c4]; exact k3 (by omega)
        · intro j hj; rw [← c4]; exact k4 j (Nat.zero_le j) hj
    · simp [EINVAL] at h

/-- A request deeper than 32 bits per pixel is refused with -EINVAL. -/
theorem check_var_too_deep (var : fb_var_screeninfo) (info : fb_info)
    (h : 32 < var.bits_per_pixel) : (grvga_check_var var info).1 = -EINVAL := by
  have hd : round_depth (clamp_res var).bits_per_pixel = none := by
    rw [(clamp_res_spec var).2.2.1]; exact (round_depth_none _).2 h
  simp [grvga_check_var, hd]

/-- C12 fails on the code: from a device running at depth 16, a request for
640x480 at depth 8 is accepted (the check returns 0) and var is left with
bits_per_pixel 8 and clock selection 0, but the bitfields written into var are
those of depth 16 (11/5, 5/6, 0/5), the depth of the running mode
info->var, and not the layout of depth 8 (offset 0 and length 8 for the three
colours). -/
theorem check_var_stale_layout :
    (grvga_check_var request8 running16).1 = 0
    ∧ (grvga_check_var request8 running16).2.1.bits_per_pixel = 8
    ∧ (grvga_check_var request8 running16).2.2.par.clk_sel = 0
    ∧ (grvga_check_var request8 running16).2.1.layout
        = (⟨11, 5, 0⟩, ⟨5, 6, 0⟩, ⟨0, 5, 0⟩, ⟨0, 0, 0⟩)
    ∧ depth_layout 8 = some (⟨0, 8, 0⟩, ⟨0, 8, 0⟩, ⟨0, 8, 0⟩, ⟨0, 0, 0⟩)
    ∧ depth_layout (grvga_check_var request8 running16).2.1.bits_per_pixel
        ≠ some (grvga_check_var request8 running16).2.1.layout := by
  decide

end Grvga
